import Mathlib

set_option synthInstance.maxSize 65536
set_option maxHeartbeats 1000000

/-!
Verification of the mindpark/vizbot repository slice:
* `src/mindpark/run/gym_env.py` — the environment adapter `GymEnv`.
* `src/vizbot/core/benchmark.py` — the benchmark driver `Benchmark`.

Python values and control flow are shallowly embedded: assertions and raised
exceptions become `Except` errors, Python strings become lists of character
codes (`Name`), numeric scores become integers (`Q`), and the external
collaborators (the wrapped gym environment, `Trainer`, agents) become
oracle functions supplied as parameters.
-/

/-! ### Environment adapter (`src/mindpark/run/gym_env.py`) -/

/-- A Python runtime value, as far as `isinstance(reward, (int, float))` can
distinguish it: an `int` (which includes `bool` in Python), a `float`
(payload modelled as a rational), or anything else. -/
inductive PyVal where
  | int (n : Int)
  | float (q : Rat)
  | other
deriving DecidableEq, Repr

/-- `isinstance(v, (int, float))`. -/
def PyVal.isNumber : PyVal → Bool
  | .int _ => true
  | .float _ => true
  | .other => false

/-- The state of a `GymEnv` adapter as `step` sees it: the declared action
and observation spaces (each a membership test, `space.contains`) and the
wrapped environment's `step`, returning
`(observation, reward, done)` — the ignored `info` component is dropped. -/
structure GymEnv (Act Obs : Type) where
  actionsContain : Act → Bool
  observsContain : Obs → Bool
  envStep : Act → Obs × PyVal × Bool

/-- Which of the three `assert` statements in `GymEnv.step` failed. -/
inductive AssertKind where
  | actionMember
  | observMember
  | rewardNumber
deriving DecidableEq, Repr

/-- `GymEnv.step`:

    def step(self, action):
        assert self.actions.contains(action)
        observation, reward, done, _ = self._env.step(action)
        assert self.observs.contains(observation)
        assert isinstance(reward, (int, float))
        if done:
            observation = None
        return reward, observation

A failed assertion is an `Except.error` carrying which assertion fired. -/
def GymEnv.step {Act Obs : Type} (e : GymEnv Act Obs) (action : Act) :
    Except AssertKind (PyVal × Option Obs) :=
  if e.actionsContain action = false then .error .actionMember
  else
    match e.envStep action with
    | (observation, reward, done) =>
      if e.observsContain observation = false then .error .observMember
      else if reward.isNumber = false then .error .rewardNumber
      else .ok (reward, if done then none else some observation)

/-! Concrete adapters used by the witnesses below.  Actions and observations
are both natural numbers; the action space is `{0}`, the observation space
accepts exactly the observation `5`. -/

/-- A concrete adapter whose wrapped environment always terminates the
episode (`done = true`) while still emitting observation `5`. -/
def egDone : GymEnv Nat Nat :=
  ⟨fun a => a = 0, fun o => o = 5, fun _ => (5, .int 1, true)⟩

/-- A concrete adapter whose wrapped environment emits an out-of-space
observation `7` on a terminal step. -/
def egBadObs : GymEnv Nat Nat :=
  ⟨fun a => a = 0, fun o => o = 5, fun _ => (7, .int 1, true)⟩

/-- A concrete adapter whose wrapped environment emits a non-numeric
reward. -/
def egBadReward : GymEnv Nat Nat :=
  ⟨fun a => a = 0, fun o => o = 5, fun _ => (5, .other, false)⟩

/-! ### Benchmark driver (`src/vizbot/core/benchmark.py`)

Python strings are embedded as lists of character codes, scores and
durations as integers.  The external collaborators — `Trainer`, the agent
classes, and the `StopTraining` signal — are embedded as an oracle
`TrainFun` mapping `(env, agent, repeat index)` to how the training
invocation `agent(trainer)()` ended together with the trainer's final
`scores` and `durations` sequences. -/

/-- A Python string (e.g. an environment name, an agent class name, or a
path component), as its list of character codes (each a `Nat`). -/
abbrev Name := List Nat

/-- A score or duration value. -/
abbrev Q := Int

/-- A filesystem path, as its list of components. -/
abbrev FsPath := List Name

/-- The character code of the hyphen. -/
def hyphenCh : Nat := 45

/-- The character code of the digit zero. -/
def zeroCh : Nat := 48

/-- The character codes of the string prepended by the template
`'repeat-{...}'`, hyphen included. -/
def repeatStem : Name := [114, 101, 112, 101, 97, 116, hyphenCh]

/-- Strict lexicographic order on strings by code point, as Python compares
strings. -/
def lexLt : Name → Name → Bool
  | [], [] => false
  | [], _ :: _ => true
  | _ :: _, [] => false
  | a :: as, b :: bs =>
    if a < b then true else if b < a then false else lexLt as bs

/-- The (total) order `sorted` uses on strings. -/
def nameLe (a b : Name) : Prop := lexLt b a = false

instance : DecidableRel nameLe := fun a b =>
  inferInstanceAs (Decidable (lexLt b a = false))

/-- Directory entries keyed by name, compared by name.  `_get_subdirs`
sorts full paths, but all listed paths share the parent directory as a
common prefix, so the comparison reduces to the entry names. -/
def keyLe {α : Type} (x y : Name × α) : Prop := nameLe x.1 y.1

instance {α : Type} : DecidableRel (@keyLe α) := fun x y =>
  inferInstanceAs (Decidable (lexLt y.1 x.1 = false))

/-- `sorted(os.listdir(...))` restricted to sub-directories, on a listing
given as a key-value list. -/
def sortByKey {α : Type} (l : List (Name × α)) : List (Name × α) :=
  List.insertionSort (@keyLe α) l

/-- Decimal digit extraction with explicit fuel, so that the definition is
structurally recursive and evaluates inside the kernel.  Any fuel at least
the number is enough. -/
def natDigitsAux : Nat → Nat → List Nat
  | 0, n => [n]
  | fuel + 1, n =>
    if n < 10 then [n] else natDigitsAux fuel (n / 10) ++ [n % 10]

/-- The decimal digits of `n`, most significant first; `str(n)` digit by
digit (in particular `str(0)` has the single digit `0`). -/
def natDigits (n : Nat) : List Nat := natDigitsAux n n

/-- The numeric value of a most-significant-first digit list. -/
def valOf : List Nat → Nat
  | [] => 0
  | d :: l => d * 10 ^ l.length + valOf l

/-- Left-pad a digit list with zeros to width `w`, as the format spec
`0>w` does (a longer list is left unchanged). -/
def padDigits (w : Nat) (l : List Nat) : List Nat :=
  List.replicate (w - l.length) 0 ++ l

/-- `len(str(repeats - 1))`, the pad width of the repeat template.  For
`repeats = 0` Python computes `len(str(-1)) = 2` (the template is then
never instantiated, since `range(0)` is empty). -/
def repeatPadWidth (repeats : Nat) : Nat :=
  if repeats = 0 then 2 else (natDigits (repeats - 1)).length

/-- The character code of a decimal digit. -/
def digitCh (d : Nat) : Nat := zeroCh + d

/-- `('repeat-{:0>' + str(len(str(repeats - 1))) + '}').format(i)` — the
zero-padded repeat sub-directory name. -/
def repeatName (repeats i : Nat) : Name :=
  repeatStem ++ (padDigits (repeatPadWidth repeats) (natDigits i)).map digitCh

instance {ε α : Type} [DecidableEq ε] [DecidableEq α] :
    DecidableEq (Except ε α) := fun x y =>
  match x, y with
  | .error a, .error b =>
    if h : a = b then .isTrue (by rw [h])
    else .isFalse (fun hc => h (Except.error.inj hc))
  | .ok a, .ok b =>
    if h : a = b then .isTrue (by rw [h])
    else .isFalse (fun hc => h (Except.ok.inj hc))
  | .error _, .ok _ => .isFalse (fun hc => Except.noConfusion hc)
  | .ok _, .error _ => .isFalse (fun hc => Except.noConfusion hc)

/-- How one training invocation `agent(trainer)()` ended: normally, by
raising `StopTraining`, or by raising any other exception. -/
inductive Signal where
  | normal
  | stopTraining
  | fatal
deriving DecidableEq, Repr

/-- An exception propagating out of the driver: an uncaught training
exception, `max()` of an empty sequence, `sum(best)/len(best)` with zero
length, or the unpacking failure of `rsplit` in `read`. -/
inductive PyErr where
  | uncaught
  | maxEmpty
  | zeroDiv
  | unpack
deriving DecidableEq, Repr

/-- The training oracle: for `(env, agent, repeat index)`, how
`agent(Trainer(subdirectory, env, **kwargs))()` ends and the trainer's
final `scores` and `durations` sequences. -/
abbrev TrainFun := Name → Name → Nat → Signal × List Q × List Q

/-- The two numeric-array files of one repeat directory:
`(scores.npy, durations.npy)` contents, keyed by the repeat directory
name. -/
abbrev RepeatTree := List (Name × List Q × List Q)

/-- The experiment directory: repeat trees keyed by the
`'{env}-{agent}'` pair directory name. -/
abbrev ExpTree := List (Name × RepeatTree)

/-- A nested result mapping (environment, agent) to the per-repeat list of
score (or duration) sequences, as a key-value list in insertion order. -/
abbrev Res := List ((Name × Name) × List (List Q))

/-- Modelled from the spec: the `Trainer` collaborator is not under
`src/`; per the spec it "writes its own persisted files into the given
directory", i.e. after training it has persisted its `scores` and
`durations` sequences as the two files of its sub-directory, and with no
directory (dry run) it writes nothing. -/
def trainerWrites (dry : Bool) (sub : Name) (sc du : List Q) : RepeatTree :=
  if dry then [] else [(sub, sc, du)]

/-- The repeat loop of `Benchmark._benchmark` over a list of repeat
indices: run training (an uncaught exception propagates, `StopTraining`
is swallowed), then append the trainer's scores and durations; the
trainer's writes accumulate into the repeat tree. -/
def runRepeats (train : TrainFun) (repeats : Nat) (dry : Bool)
    (env agent : Name) :
    List Nat → Except PyErr (List (List Q) × List (List Q) × RepeatTree)
  | [] => .ok ([], [], [])
  | i :: rest =>
    match train env agent i with
    | (sig, sc, du) =>
      if sig = .fatal then .error .uncaught
      else
        match runRepeats train repeats dry env agent rest with
        | .error e => .error e
        | .ok (ss, ds, t) =>
          .ok (sc :: ss, du :: ds,
            trainerWrites dry (repeatName repeats i) sc du ++ t)

/-- `Benchmark._benchmark(directory, env, agent)`: the repeat loop over
`range(self._repeats)`; `dry` records `directory is None`. -/
def benchmarkPair (train : TrainFun) (repeats : Nat) (dry : Bool)
    (env agent : Name) :
    Except PyErr (List (List Q) × List (List Q) × RepeatTree) :=
  runRepeats train repeats dry env agent (List.range repeats)

/-- Python `max` on a list: `ValueError` on the empty list. -/
def pyMax : List Q → Except PyErr Q
  | [] => .error .maxEmpty
  | x :: xs => .ok (xs.foldl max x)

/-- `best = [max(x) for x in score]`. -/
def bestOf : List (List Q) → Except PyErr (List Q)
  | [] => .ok []
  | x :: xs =>
    match pyMax x with
    | .error e => .error e
    | .ok m =>
      match bestOf xs with
      | .error e => .error e
      | .ok ms => .ok (m :: ms)

/-- The failure behaviour of
`print('Mean best score {}'.format(round(sum(best) / len(best), 3)))`
together with the `best` comprehension: `ValueError` on an empty score
sequence, `ZeroDivisionError` on zero repeats.  The printed value itself
is not returned anywhere, so only the raising behaviour is embedded. -/
def meanBestCheck (score : List (List Q)) : Except PyErr Unit :=
  match bestOf score with
  | .error e => .error e
  | .ok best => if best.length = 0 then .error .zeroDiv else .ok ()

/-- `'{}-{}'.format(env, agent.__name__)` — the pair directory name. -/
def pairDirName (env agent : Name) : Name := env ++ hyphenCh :: agent

/-- `itertools.product(envs, agents)`: environment varies slower, agent
faster. -/
def pairList (envs agents : List Name) : List (Name × Name) :=
  match envs with
  | [] => []
  | e :: es => agents.map (fun a => (e, a)) ++ pairList es agents

/-- The pair loop of `Benchmark.__call__`: for each pair run
`_benchmark`, evaluate the mean-best-score summary (which can raise), and
record scores and durations keyed by `(env, agent)`; in a non-dry run the
pair directory with the trainers' writes accumulates into the experiment
tree.  (The pair directory exists on disk through the repeat directories
the trainers create inside it; a successful run always has at least one
repeat, so recording the entry unconditionally is faithful on every tree
that `read` can ever see.) -/
def runPairs (train : TrainFun) (repeats : Nat) (dry : Bool) :
    List (Name × Name) → Except PyErr (Res × Res × ExpTree)
  | [] => .ok ([], [], [])
  | (env, agent) :: rest =>
    match benchmarkPair train repeats dry env agent with
    | .error e => .error e
    | .ok (sc, du, rt) =>
      match meanBestCheck sc with
      | .error e => .error e
      | .ok _ =>
        match runPairs train repeats dry rest with
        | .error e => .error e
        | .ok (s, d, t) =>
          .ok (((env, agent), sc) :: s, ((env, agent), du) :: d,
            (if dry then [] else [(pairDirName env agent, rt)]) ++ t)

/-- `basename.rsplit('-', 1)`: split a name at its last hyphen; `none`
embeds the `ValueError` of unpacking a list with fewer than two parts. -/
def rsplitHyphen : Name → Option (Name × Name)
  | [] => none
  | c :: rest =>
    match rsplitHyphen rest with
    | some (l, r) => some (c :: l, r)
    | none => if c = hyphenCh then some ([], rest) else none

/-- The inner loop of `Benchmark.read` over one pair directory: the repeat
directories in sorted order, loading `scores.npy` and `durations.npy`
from each. -/
def readRepeatDirs (rt : RepeatTree) : List (List Q) × List (List Q) :=
  ((sortByKey rt).map (fun x => x.2.1), (sortByKey rt).map (fun x => x.2.2))

/-- The outer loop of `Benchmark.read` over pair directory entries (in the
order given): split each directory name on its last hyphen into
`(env, agent)` and collect that pair's repeats. -/
def readEntries : ExpTree → Except PyErr (Res × Res)
  | [] => .ok ([], [])
  | (dname, rt) :: rest =>
    match rsplitHyphen dname with
    | none => .error .unpack
    | some (env, agent) =>
      match readEntries rest with
      | .error e => .error e
      | .ok (s, d) =>
        .ok (((env, agent), (readRepeatDirs rt).1) :: s,
          ((env, agent), (readRepeatDirs rt).2) :: d)

/-- `Benchmark.read(experiment)`: the pair directories in sorted order,
then the per-directory collection. -/
def readExp (tree : ExpTree) : Except PyErr (Res × Res) :=
  readEntries (sortByKey tree)

/-- `Benchmark._start_experiment(name)`: `None` without a root directory,
else the root-joined `'{timestamp}-{name}'` directory. -/
def startExperiment (root : Option FsPath) (ts nm : Name) : Option FsPath :=
  root.map (fun r => r ++ [ts ++ hyphenCh :: nm])

/-- `Benchmark.__call__(name, envs, agents)`: start the experiment, run
every pair, and return the experiment path with the results — the
in-memory results in a dry run, the re-read persisted results otherwise.
The produced experiment tree is returned alongside for inspection. -/
def benchCall (train : TrainFun) (repeats : Nat) (root : Option FsPath)
    (ts nm : Name) (envs agents : List Name) :
    Except PyErr (Option FsPath × Res × Res × ExpTree) :=
  match startExperiment root ts nm with
  | none =>
    match runPairs train repeats true (pairList envs agents) with
    | .error e => .error e
    | .ok (s, d, t) => .ok (none, s, d, t)
  | some p =>
    match runPairs train repeats false (pairList envs agents) with
    | .error e => .error e
    | .ok (_, _, t) =>
      match readExp t with
      | .error e => .error e
      | .ok (s2, d2) => .ok (some p, s2, d2, t)

/-- A concrete training oracle for the witnesses below: every invocation
ends in `StopTraining` with scores `[1, 2]` and durations `[3, 4]`. -/
def egTrain : TrainFun := fun _ _ _ => (.stopTraining, [1, 2], [3, 4])

/-! ### Lemmas on decimal digits -/

theorem natDigitsAux_congr :
    ∀ f1 f2 n : Nat, n ≤ f1 → n ≤ f2 →
      natDigitsAux f1 n = natDigitsAux f2 n := by
  intro f1
  induction f1 with
  | zero =>
    intro f2 n h1 _
    have hn : n = 0 := by omega
    subst hn
    cases f2 with
    | zero => rfl
    | succ m => simp [natDigitsAux]
  | succ k ih =>
    intro f2 n h1 h2
    cases f2 with
    | zero =>
      have hn : n = 0 := by omega
      subst hn
      simp [natDigitsAux]
    | succ m =>
      simp only [natDigitsAux]
      by_cases hn : n < 10
      · simp [hn]
      · rw [if_neg hn, if_neg hn, ih m (n / 10) (by omega) (by omega)]

theorem natDigits_eq (n : Nat) :
    natDigits n = if n < 10 then [n] else natDigits (n / 10) ++ [n % 10] := by
  unfold natDigits
  cases n with
  | zero => simp [natDigitsAux]
  | succ k =>
    simp only [natDigitsAux]
    by_cases h : k + 1 < 10
    · simp [h]
    · rw [if_neg h, if_neg h,
        natDigitsAux_congr k ((k + 1) / 10) ((k + 1) / 10) (by omega)
          (Nat.le_refl _)]

theorem natDigits_length_pos (n : Nat) : 0 < (natDigits n).length := by
  rw [natDigits_eq]
  split
  · simp
  · simp

theorem natDigits_digit_lt (n : Nat) : ∀ d ∈ natDigits n, d < 10 := by
  induction n using Nat.strong_induction_on with
  | _ n ih =>
    rw [natDigits_eq]
    split
    · rename_i h
      intro d hd
      rw [List.mem_singleton] at hd
      omega
    · rename_i h
      intro d hd
      rw [List.mem_append] at hd
      rcases hd with hd | hd
      · exact ih (n / 10) (Nat.div_lt_self (by omega) (by omega)) d hd
      · rw [List.mem_singleton] at hd
        subst hd
        exact Nat.mod_lt _ (by omega)

theorem valOf_append (a b : List Nat) :
    valOf (a ++ b) = valOf a * 10 ^ b.length + valOf b := by
  induction a with
  | nil => simp [valOf]
  | cons d l ih =>
    simp only [List.cons_append, valOf, List.append_eq]
    rw [ih, List.length_append, pow_add]
    ring

theorem valOf_natDigits (n : Nat) : valOf (natDigits n) = n := by
  induction n using Nat.strong_induction_on with
  | _ n ih =>
    rw [natDigits_eq]
    split
    · simp [valOf]
    · rename_i h
      rw [valOf_append, ih (n / 10) (Nat.div_lt_self (by omega) (by omega))]
      simp only [valOf, List.length_cons, List.length_nil]
      omega

theorem natDigits_length_mono :
    ∀ n m : Nat, m ≤ n → (natDigits m).length ≤ (natDigits n).length := by
  intro n
  induction n using Nat.strong_induction_on with
  | _ n ih =>
    intro m h
    by_cases hm : m < 10
    · have h1 : natDigits m = [m] := by rw [natDigits_eq]; simp [hm]
      rw [h1]
      simpa using natDigits_length_pos n
    · have hn : ¬ n < 10 := by omega
      rw [natDigits_eq m, natDigits_eq n, if_neg hm, if_neg hn]
      simp only [List.length_append, List.length_cons, List.length_nil]
      have := ih (n / 10) (Nat.div_lt_self (by omega) (by omega)) (m / 10)
        (Nat.div_le_div_right h)
      omega

theorem valOf_lt_pow (l : List Nat) (h : ∀ d ∈ l, d < 10) :
    valOf l < 10 ^ l.length := by
  induction l with
  | nil => simp [valOf]
  | cons d t ih =>
    simp only [valOf, List.length_cons]
    have ht := ih (fun x hx => h x (List.mem_cons_of_mem d hx))
    calc d * 10 ^ t.length + valOf t
        < d * 10 ^ t.length + 10 ^ t.length := Nat.add_lt_add_left ht _
      _ = (d + 1) * 10 ^ t.length := by ring
      _ ≤ 10 * 10 ^ t.length :=
          mul_le_mul_right' (by have := h d (List.mem_cons_self d t); omega) _
      _ = 10 ^ (t.length + 1) := by ring

/-! ### Lemmas on lexicographic order -/

theorem lexLt_append_left (p a b : Name) :
    lexLt (p ++ a) (p ++ b) = lexLt a b := by
  induction p with
  | nil => rfl
  | cons c t ih => simp [lexLt, ih]

theorem lexLt_asymm : ∀ a b : Name, lexLt a b = true → lexLt b a = false := by
  intro a
  induction a with
  | nil =>
    intro b h
    cases b with
    | nil => simp [lexLt] at h
    | cons c cs => rfl
  | cons x xs ih =>
    intro b h
    cases b with
    | nil => simp [lexLt] at h
    | cons y ys =>
      simp only [lexLt] at h ⊢
      by_cases h1 : x < y
      · have hyx : ¬ y < x := by omega
        rw [if_neg hyx, if_pos h1]
      · by_cases h2 : y < x
        · rw [if_neg h1, if_pos h2] at h
          simp at h
        · have hxy : x = y := by omega
          subst hxy
          rw [if_neg h1, if_neg h2] at h
          rw [if_neg h2, if_neg h1]
          exact ih ys h

theorem lexLt_map_digitCh : ∀ a b : List Nat,
    lexLt (a.map digitCh) (b.map digitCh) = lexLt a b := by
  intro a
  induction a with
  | nil =>
    intro b
    cases b <;> rfl
  | cons x xs ih =>
    intro b
    cases b with
    | nil => rfl
    | cons y ys =>
      simp only [List.map_cons, lexLt, digitCh, zeroCh]
      by_cases h1 : x < y
      · have hc1 : 48 + x < 48 + y := by omega
        rw [if_pos hc1, if_pos h1]
      · by_cases h2 : y < x
        · have hc1 : ¬ 48 + x < 48 + y := by omega
          have hc2 : 48 + y < 48 + x := by omega
          rw [if_neg hc1, if_pos hc2, if_neg h1, if_pos h2]
        · have hc1 : ¬ 48 + x < 48 + y := by omega
          have hc2 : ¬ 48 + y < 48 + x := by omega
          rw [if_neg hc1, if_neg hc2, if_neg h1, if_neg h2]
          exact ih ys

theorem lexLt_of_valOf_lt : ∀ a b : List Nat, a.length = b.length →
    (∀ d ∈ b, d < 10) → valOf a < valOf b → lexLt a b = true := by
  intro a
  induction a with
  | nil =>
    intro b hlen _ hv
    cases b with
    | nil => simp [valOf] at hv
    | cons _ _ => simp at hlen
  | cons x xs ih =>
    intro b hlen hb hv
    cases b with
    | nil => simp at hlen
    | cons y ys =>
      simp only [List.length_cons] at hlen
      have hlen2 : xs.length = ys.length := by omega
      simp only [lexLt]
      by_cases h1 : x < y
      · rw [if_pos h1]
      · by_cases h2 : y < x
        · exfalso
          have hysv : valOf ys < 10 ^ ys.length :=
            valOf_lt_pow ys (fun d hd => hb d (List.mem_cons_of_mem y hd))
          have hge : valOf (y :: ys) ≤ valOf (x :: xs) := by
            calc valOf (y :: ys) = y * 10 ^ ys.length + valOf ys := rfl
              _ ≤ y * 10 ^ ys.length + 10 ^ ys.length :=
                  Nat.le_of_lt (Nat.add_lt_add_left hysv _)
              _ = (y + 1) * 10 ^ ys.length := by ring
              _ ≤ x * 10 ^ ys.length := mul_le_mul_right' (by omega) _
              _ ≤ x * 10 ^ ys.length + valOf xs := Nat.le_add_right _ _
              _ = valOf (x :: xs) := by simp [valOf, hlen2]
          exact absurd (lt_of_lt_of_le hv hge) (lt_irrefl _)
        · have hxy : x = y := by omega
          subst hxy
          rw [if_neg h1, if_neg h2]
          apply ih ys hlen2 (fun d hd => hb d (List.mem_cons_of_mem x hd))
          simp only [valOf, hlen2] at hv
          exact lt_of_add_lt_add_left hv

/-! ### Lemmas on padding and repeat directory names -/

theorem padDigits_length {w : Nat} {l : List Nat} (h : l.length ≤ w) :
    (padDigits w l).length = w := by
  simp only [padDigits, List.length_append, List.length_replicate]
  omega

theorem valOf_replicate_zero (k : Nat) : valOf (List.replicate k 0) = 0 := by
  induction k with
  | zero => rfl
  | succ n ih => simpa [List.replicate, valOf] using ih

theorem valOf_padDigits (w : Nat) (l : List Nat) :
    valOf (padDigits w l) = valOf l := by
  simp [padDigits, valOf_append, valOf_replicate_zero]

theorem padDigits_digit_lt (w : Nat) (l : List Nat) (h : ∀ d ∈ l, d < 10) :
    ∀ d ∈ padDigits w l, d < 10 := by
  intro d hd
  rw [padDigits, List.mem_append] at hd
  rcases hd with hd | hd
  · rw [List.eq_of_mem_replicate hd]
    omega
  · exact h d hd

theorem repeatName_lt {repeats i j : Nat} (hij : i < j) (hj : j < repeats) :
    lexLt (repeatName repeats i) (repeatName repeats j) = true := by
  have hr : repeats ≠ 0 := by omega
  have hw : repeatPadWidth repeats = (natDigits (repeats - 1)).length := by
    simp [repeatPadWidth, hr]
  have hi : (natDigits i).length ≤ repeatPadWidth repeats := by
    rw [hw]
    exact natDigits_length_mono (repeats - 1) i (by omega)
  have hjlen : (natDigits j).length ≤ repeatPadWidth repeats := by
    rw [hw]
    exact natDigits_length_mono (repeats - 1) j (by omega)
  unfold repeatName
  rw [lexLt_append_left, lexLt_map_digitCh]
  apply lexLt_of_valOf_lt
  · rw [padDigits_length hi, padDigits_length hjlen]
  · exact padDigits_digit_lt _ _ (natDigits_digit_lt j)
  · rw [valOf_padDigits, valOf_padDigits, valOf_natDigits, valOf_natDigits]
    exact hij

theorem repeatNames_pairwise (repeats : Nat) :
    ((List.range repeats).map (repeatName repeats)).Pairwise
      (fun a b => lexLt a b = true) := by
  rw [List.pairwise_map]
  refine (List.pairwise_lt_range repeats).imp_of_mem ?_
  intro a b _ hb hab
  exact repeatName_lt hab (List.mem_range.mp hb)

theorem rangeTree_pairwise {α : Type} (repeats : Nat) (f : Nat → α) :
    ((List.range repeats).map (fun i => (repeatName repeats i, f i))).Pairwise
      (fun x y => lexLt x.1 y.1 = true) := by
  rw [List.pairwise_map]
  refine (List.pairwise_lt_range repeats).imp_of_mem ?_
  intro a b _ hb hab
  exact repeatName_lt hab (List.mem_range.mp hb)

theorem sortByKey_eq_of_pairwise {α : Type} {l : List (Name × α)}
    (h : l.Pairwise (fun x y => lexLt x.1 y.1 = true)) :
    sortByKey l = l :=
  List.Sorted.insertionSort_eq
    (h.imp (fun hxy => lexLt_asymm _ _ hxy))

theorem readRepeatDirs_range (repeats : Nat) (f g : Nat → List Q) :
    readRepeatDirs ((List.range repeats).map
        (fun i => (repeatName repeats i, f i, g i))) =
      ((List.range repeats).map f, (List.range repeats).map g) := by
  unfold readRepeatDirs
  rw [sortByKey_eq_of_pairwise (rangeTree_pairwise repeats
    (fun i => (f i, g i)))]
  simp [List.map_map, Function.comp]

/-! ### Structure of successful runs -/

theorem runRepeats_ok {train : TrainFun} {repeats : Nat} {dry : Bool}
    {env agent : Name} :
    ∀ {l : List Nat} {ss ds : List (List Q)} {t : RepeatTree},
      runRepeats train repeats dry env agent l = .ok (ss, ds, t) →
      ss = l.map (fun i => (train env agent i).2.1) ∧
      ds = l.map (fun i => (train env agent i).2.2) ∧
      t = (if dry then [] else l.map (fun i =>
        (repeatName repeats i, (train env agent i).2.1,
          (train env agent i).2.2))) := by
  intro l
  induction l with
  | nil =>
    intro ss ds t h
    simp only [runRepeats, Except.ok.injEq, Prod.mk.injEq] at h
    obtain ⟨h1, h2, h3⟩ := h
    subst h1
    subst h2
    subst h3
    simp
  | cons i rest ih =>
    intro ss ds t h
    simp only [runRepeats] at h
    rcases htr : train env agent i with ⟨sig, sc, du⟩
    rw [htr] at h
    simp only at h
    by_cases hsig : sig = .fatal
    · rw [if_pos hsig] at h
      exact absurd h (by simp)
    · rw [if_neg hsig] at h
      cases hrec : runRepeats train repeats dry env agent rest with
      | error e =>
        rw [hrec] at h
        exact absurd h (by simp)
      | ok v =>
        rw [hrec] at h
        rcases v with ⟨ss2, ds2, t2⟩
        simp only [Except.ok.injEq, Prod.mk.injEq] at h
        obtain ⟨h1, h2, h3⟩ := h
        obtain ⟨g1, g2, g3⟩ := ih hrec
        subst h1
        subst h2
        subst h3
        subst g1
        subst g2
        subst g3
        refine ⟨by simp [htr], by simp [htr], ?_⟩
        cases dry with
        | true => simp [trainerWrites]
        | false => simp [trainerWrites, htr]

theorem runPairs_ok {train : TrainFun} {repeats : Nat} {dry : Bool} :
    ∀ {pl : List (Name × Name)} {s d : Res} {t : ExpTree},
      runPairs train repeats dry pl = .ok (s, d, t) →
      s = pl.map (fun p => (p, (List.range repeats).map
            (fun i => (train p.1 p.2 i).2.1))) ∧
      d = pl.map (fun p => (p, (List.range repeats).map
            (fun i => (train p.1 p.2 i).2.2))) ∧
      t = (if dry then [] else pl.map (fun p => (pairDirName p.1 p.2,
            (List.range repeats).map (fun i => (repeatName repeats i,
              (train p.1 p.2 i).2.1, (train p.1 p.2 i).2.2))))) := by
  intro pl
  induction pl with
  | nil =>
    intro s d t h
    simp only [runPairs, Except.ok.injEq, Prod.mk.injEq] at h
    obtain ⟨h1, h2, h3⟩ := h
    subst h1
    subst h2
    subst h3
    simp
  | cons p rest ih =>
    intro s d t h
    rcases p with ⟨env, agent⟩
    simp only [runPairs] at h
    cases hbp : benchmarkPair train repeats dry env agent with
    | error e =>
      rw [hbp] at h
      exact absurd h (by simp)
    | ok v =>
      rw [hbp] at h
      rcases v with ⟨sc, du, rt⟩
      simp only at h
      cases hmb : meanBestCheck sc with
      | error e =>
        rw [hmb] at h
        exact absurd h (by simp)
      | ok u =>
        rw [hmb] at h
        simp only at h
        cases hrec : runPairs train repeats dry rest with
        | error e =>
          rw [hrec] at h
          exact absurd h (by simp)
        | ok w =>
          rw [hrec] at h
          rcases w with ⟨s2, d2, t2⟩
          simp only [Except.ok.injEq, Prod.mk.injEq] at h
          obtain ⟨h1, h2, h3⟩ := h
          obtain ⟨g1, g2, g3⟩ := ih hrec
          obtain ⟨b1, b2, b3⟩ := runRepeats_ok hbp
          subst h1
          subst h2
          subst h3
          subst g1
          subst g2
          subst g3
          subst b1
          subst b2
          subst b3
          refine ⟨by simp, by simp, ?_⟩
          cases dry with
          | true => simp
          | false => simp

/-! ### The mean-best-score summary -/

theorem bestOf_total : ∀ {xs : List (List Q)}, (∀ x ∈ xs, x ≠ []) →
    ∃ bs, bestOf xs = .ok bs ∧ bs.length = xs.length := by
  intro xs
  induction xs with
  | nil => exact fun _ => ⟨[], rfl, rfl⟩
  | cons x t ih =>
    intro h
    obtain ⟨bs, hb, hlen⟩ := ih (fun y hy => h y (List.mem_cons_of_mem x hy))
    have hx := h x (List.mem_cons_self x t)
    cases x with
    | nil => exact absurd rfl hx
    | cons a as =>
      refine ⟨as.foldl max a :: bs, ?_, by simp [hlen]⟩
      simp [bestOf, pyMax, hb]

theorem bestOf_ok_ne_nil : ∀ {xs : List (List Q)} {bs : List Q},
    bestOf xs = .ok bs → (∀ x ∈ xs, x ≠ []) ∧ bs.length = xs.length := by
  intro xs
  induction xs with
  | nil =>
    intro bs h
    simp only [bestOf, Except.ok.injEq] at h
    subst h
    exact ⟨by simp, rfl⟩
  | cons x t ih =>
    intro bs h
    cases x with
    | nil => simp [bestOf, pyMax] at h
    | cons a as =>
      simp only [bestOf, pyMax] at h
      cases hrec : bestOf t with
      | error e =>
        rw [hrec] at h
        simp at h
      | ok ms =>
        rw [hrec] at h
        simp only [Except.ok.injEq] at h
        obtain ⟨h1, h2⟩ := ih hrec
        subst h
        constructor
        · intro y hy
          rcases List.mem_cons.mp hy with rfl | hy2
          · simp
          · exact h1 y hy2
        · simp [h2]

theorem bestOf_err : ∀ {xs : List (List Q)} {e : PyErr},
    bestOf xs = .error e → e = .maxEmpty := by
  intro xs
  induction xs with
  | nil =>
    intro e h
    simp [bestOf] at h
  | cons x t ih =>
    intro e h
    cases x with
    | nil =>
      simp only [bestOf, pyMax, Except.error.injEq] at h
      exact h.symm
    | cons a as =>
      simp only [bestOf, pyMax] at h
      cases hrec : bestOf t with
      | error e2 =>
        rw [hrec] at h
        simp only [Except.error.injEq] at h
        subst h
        exact ih hrec
      | ok ms =>
        rw [hrec] at h
        simp at h

theorem meanBestCheck_ok_iff (sc : List (List Q)) :
    meanBestCheck sc = .ok () ↔ ((∀ x ∈ sc, x ≠ []) ∧ sc ≠ []) := by
  constructor
  · intro h
    unfold meanBestCheck at h
    cases hb : bestOf sc with
    | error e =>
      rw [hb] at h
      simp at h
    | ok best =>
      rw [hb] at h
      simp only at h
      obtain ⟨h1, h2⟩ := bestOf_ok_ne_nil hb
      by_cases hl : best.length = 0
      · rw [if_pos hl] at h
        simp at h
      · refine ⟨h1, ?_⟩
        intro hnil
        subst hnil
        rw [List.length_nil] at h2
        exact hl h2
  · rintro ⟨h1, h2⟩
    obtain ⟨bs, hb, hlen⟩ := bestOf_total h1
    have hne : ¬ bs.length = 0 := by
      rw [hlen]
      exact fun hc => h2 (List.length_eq_zero.mp hc)
    unfold meanBestCheck
    rw [hb]
    simp only
    rw [if_neg hne]

theorem meanBestCheck_err {sc : List (List Q)} {e : PyErr}
    (h : meanBestCheck sc = .error e) : e = .zeroDiv ∨ e = .maxEmpty := by
  unfold meanBestCheck at h
  cases hb : bestOf sc with
  | error e2 =>
    rw [hb] at h
    simp only [Except.error.injEq] at h
    subst h
    exact Or.inr (bestOf_err hb)
  | ok best =>
    rw [hb] at h
    simp only at h
    by_cases hl : best.length = 0
    · rw [if_pos hl] at h
      simp only [Except.error.injEq] at h
      exact Or.inl h.symm
    · rw [if_neg hl] at h
      simp at h

/-! ### Totality of runs without fatal training errors -/

theorem runRepeats_total {train : TrainFun} {repeats : Nat} {dry : Bool}
    {env agent : Name} :
    ∀ {l : List Nat}, (∀ i ∈ l, (train env agent i).1 ≠ .fatal) →
      ∃ t, runRepeats train repeats dry env agent l =
        .ok (l.map (fun i => (train env agent i).2.1),
             l.map (fun i => (train env agent i).2.2), t) := by
  intro l
  induction l with
  | nil => exact fun _ => ⟨[], rfl⟩
  | cons i rest ih =>
    intro h
    obtain ⟨t, ht⟩ := ih (fun j hj => h j (List.mem_cons_of_mem i hj))
    refine ⟨trainerWrites dry (repeatName repeats i) (train env agent i).2.1
      (train env agent i).2.2 ++ t, ?_⟩
    have hs := h i (List.mem_cons_self i rest)
    simp only [runRepeats]
    rcases htr : train env agent i with ⟨sig, sc, du⟩
    rw [htr] at hs
    simp only at hs
    simp only [List.map_cons]
    rw [if_neg hs, ht]
    simp [htr]

theorem runPairs_total {train : TrainFun} {repeats : Nat} {dry : Bool}
    (hrep : 1 ≤ repeats) :
    ∀ {pl : List (Name × Name)},
      (∀ p ∈ pl, ∀ i, i < repeats → (train p.1 p.2 i).1 ≠ .fatal) →
      (∀ p ∈ pl, ∀ i, i < repeats → (train p.1 p.2 i).2.1 ≠ []) →
      ∃ t, runPairs train repeats dry pl =
        .ok (pl.map (fun p => (p, (List.range repeats).map
              (fun i => (train p.1 p.2 i).2.1))),
             pl.map (fun p => (p, (List.range repeats).map
              (fun i => (train p.1 p.2 i).2.2))), t) := by
  intro pl
  induction pl with
  | nil => exact fun _ _ => ⟨[], rfl⟩
  | cons p rest ih =>
    intro hnf hne
    rcases p with ⟨env, agent⟩
    obtain ⟨t2, ht2⟩ := ih (fun q hq => hnf q (List.mem_cons_of_mem _ hq))
      (fun q hq => hne q (List.mem_cons_of_mem _ hq))
    obtain ⟨rt, hrt⟩ := @runRepeats_total train repeats dry env agent
      (List.range repeats)
      (fun i hi => hnf (env, agent) (List.mem_cons_self _ _) i
        (List.mem_range.mp hi))
    have hbp : benchmarkPair train repeats dry env agent =
        .ok ((List.range repeats).map (fun i => (train env agent i).2.1),
             (List.range repeats).map (fun i => (train env agent i).2.2),
             rt) := hrt
    have hmb : meanBestCheck ((List.range repeats).map
        (fun i => (train env agent i).2.1)) = .ok () := by
      refine (meanBestCheck_ok_iff _).mpr ⟨?_, ?_⟩
      · intro x hx
        obtain ⟨i, hi, rfl⟩ := List.mem_map.mp hx
        exact hne (env, agent) (List.mem_cons_self _ _) i (List.mem_range.mp hi)
      · have : List.range repeats ≠ [] := by
          intro hc
          rw [List.range_eq_nil] at hc
          omega
        simpa using this
    refine ⟨(if dry then [] else [(pairDirName env agent, rt)]) ++ t2, ?_⟩
    simp only [runPairs]
    rw [hbp]
    simp only
    rw [hmb]
    simp only
    rw [ht2]
    simp

theorem runPairs_ok_necessary {train : TrainFun} {repeats : Nat}
    {dry : Bool} :
    ∀ {pl : List (Name × Name)} {out},
      runPairs train repeats dry pl = .ok out →
      (∀ p ∈ pl, ∀ i, i < repeats → (train p.1 p.2 i).2.1 ≠ []) ∧
        (pl ≠ [] → 1 ≤ repeats) := by
  intro pl
  induction pl with
  | nil =>
    intro out h
    exact ⟨by simp, fun hc => absurd rfl hc⟩
  | cons p rest ih =>
    intro out h
    rcases p with ⟨env, agent⟩
    simp only [runPairs] at h
    cases hbp : benchmarkPair train repeats dry env agent with
    | error e =>
      rw [hbp] at h
      simp at h
    | ok v =>
      rw [hbp] at h
      rcases v with ⟨sc, du, rt⟩
      simp only at h
      cases hmb : meanBestCheck sc with
      | error e =>
        rw [hmb] at h
        simp at h
      | ok u =>
        rw [hmb] at h
        simp only at h
        cases hrec : runPairs train repeats dry rest with
        | error e =>
          rw [hrec] at h
          simp at h
        | ok w =>
          obtain ⟨hsc, -, -⟩ := runRepeats_ok hbp
          cases u
          obtain ⟨hne, hlen⟩ := (meanBestCheck_ok_iff sc).mp hmb
          obtain ⟨ihne, -⟩ := ih hrec
          constructor
          · intro q hq i hi
            rcases List.mem_cons.mp hq with rfl | hq2
            · apply hne
              rw [hsc]
              exact List.mem_map_of_mem _ (List.mem_range.mpr hi)
            · exact ihne q hq2 i hi
          · intro _
            by_contra hc
            have h0 : repeats = 0 := by omega
            apply hlen
            rw [hsc, h0]
            simp

theorem runPairs_err_kinds {train : TrainFun} {repeats : Nat} {dry : Bool} :
    ∀ {pl : List (Name × Name)},
      (∀ p ∈ pl, ∀ i, i < repeats → (train p.1 p.2 i).1 ≠ .fatal) →
      (∃ out, runPairs train repeats dry pl = .ok out) ∨
        runPairs train repeats dry pl = .error .zeroDiv ∨
        runPairs train repeats dry pl = .error .maxEmpty := by
  intro pl
  induction pl with
  | nil => exact fun _ => Or.inl ⟨([], [], []), rfl⟩
  | cons p rest ih =>
    intro hnf
    rcases p with ⟨env, agent⟩
    obtain ⟨rt, hrt⟩ := @runRepeats_total train repeats dry env agent
      (List.range repeats)
      (fun i hi => hnf (env, agent) (List.mem_cons_self _ _) i
        (List.mem_range.mp hi))
    have hbp : benchmarkPair train repeats dry env agent =
        .ok ((List.range repeats).map (fun i => (train env agent i).2.1),
             (List.range repeats).map (fun i => (train env agent i).2.2),
             rt) := hrt
    cases hmb : meanBestCheck ((List.range repeats).map
        (fun i => (train env agent i).2.1)) with
    | error e =>
      have hkind := meanBestCheck_err hmb
      have hrun : runPairs train repeats dry ((env, agent) :: rest) =
          .error e := by
        simp only [runPairs]
        rw [hbp]
        simp only
        rw [hmb]
      rcases hkind with rfl | rfl
      · exact Or.inr (Or.inl hrun)
      · exact Or.inr (Or.inr hrun)
    | ok u =>
      cases u
      rcases ih (fun q hq => hnf q (List.mem_cons_of_mem _ hq)) with
        ⟨out, hout⟩ | herr | herr
      · left
        rcases out with ⟨s2, d2, t2⟩
        refine ⟨(((env, agent), (List.range repeats).map
            (fun i => (train env agent i).2.1)) :: s2,
          ((env, agent), (List.range repeats).map
            (fun i => (train env agent i).2.2)) :: d2,
          (if dry then [] else [(pairDirName env agent, rt)]) ++ t2), ?_⟩
        simp only [runPairs]
        rw [hbp]
        simp only
        rw [hmb]
        simp only
        rw [hout]
      · right
        left
        simp only [runPairs]
        rw [hbp]
        simp only
        rw [hmb]
        simp only
        rw [herr]
      · right
        right
        simp only [runPairs]
        rw [hbp]
        simp only
        rw [hmb]
        simp only
        rw [herr]

/-! ### Reading back the experiment directory -/

theorem rsplitHyphen_none {a : Name} (h : hyphenCh ∉ a) :
    rsplitHyphen a = none := by
  induction a with
  | nil => rfl
  | cons c t ih =>
    have ht : rsplitHyphen t = none :=
      ih (fun hm => h (List.mem_cons_of_mem c hm))
    have hc : ¬ c = hyphenCh :=
      fun hc => h (List.mem_cons.mpr (Or.inl hc.symm))
    simp [rsplitHyphen, ht, hc]

theorem rsplitHyphen_pairDirName {e a : Name} (h : hyphenCh ∉ a) :
    rsplitHyphen (pairDirName e a) = some (e, a) := by
  unfold pairDirName
  induction e with
  | nil => simp [rsplitHyphen, rsplitHyphen_none h]
  | cons c t ih => simp [rsplitHyphen, ih]

theorem pairList_mem {envs agents : List Name} {p : Name × Name}
    (h : p ∈ pairList envs agents) : p.1 ∈ envs ∧ p.2 ∈ agents := by
  induction envs with
  | nil => simp [pairList] at h
  | cons e es ih =>
    simp only [pairList, List.mem_append, List.mem_map] at h
    rcases h with ⟨a, ha, rfl⟩ | h
    · exact ⟨List.mem_cons_self _ _, ha⟩
    · obtain ⟨h1, h2⟩ := ih h
      exact ⟨List.mem_cons_of_mem _ h1, h2⟩

theorem readEntries_pairs {repeats : Nat} {train : TrainFun} :
    ∀ {pl : List (Name × Name)}, (∀ p ∈ pl, hyphenCh ∉ p.2) →
      readEntries (pl.map (fun p => (pairDirName p.1 p.2,
          (List.range repeats).map (fun i => (repeatName repeats i,
            (train p.1 p.2 i).2.1, (train p.1 p.2 i).2.2))))) =
        .ok (pl.map (fun p => (p, (List.range repeats).map
              (fun i => (train p.1 p.2 i).2.1))),
             pl.map (fun p => (p, (List.range repeats).map
              (fun i => (train p.1 p.2 i).2.2)))) := by
  intro pl
  induction pl with
  | nil => exact fun _ => rfl
  | cons p rest ih =>
    intro h
    rcases p with ⟨env, agent⟩
    simp only [List.map_cons, readEntries]
    rw [rsplitHyphen_pairDirName (h (env, agent) (List.mem_cons_self _ _)),
      ih (fun q hq => h q (List.mem_cons_of_mem _ hq))]
    simp only
    rw [readRepeatDirs_range]

theorem readEntries_perm : ∀ {t1 t2 : ExpTree}, t1.Perm t2 →
    ∀ {s d : Res}, readEntries t1 = .ok (s, d) →
      ∃ s2 d2, readEntries t2 = .ok (s2, d2) ∧ s2.Perm s ∧ d2.Perm d := by
  intro t1 t2 hp
  induction hp with
  | nil =>
    intro s d h
    exact ⟨s, d, h, List.Perm.refl _, List.Perm.refl _⟩
  | cons x p ih =>
    rename_i l1 l2
    intro s d h
    rcases x with ⟨dname, rt⟩
    simp only [readEntries] at h ⊢
    cases hsp : rsplitHyphen dname with
    | none =>
      rw [hsp] at h
      simp at h
    | some ea =>
      rcases ea with ⟨env, agent⟩
      rw [hsp] at h
      cases hrec : readEntries l1 with
      | error e =>
        rw [hrec] at h
        simp at h
      | ok v =>
        rw [hrec] at h
        rcases v with ⟨s3, d3⟩
        simp only [Except.ok.injEq, Prod.mk.injEq] at h
        obtain ⟨h1, h2⟩ := h
        obtain ⟨s4, d4, h4, hp1, hp2⟩ := ih hrec
        rw [h4]
        subst h1
        subst h2
        exact ⟨_, _, rfl, hp1.cons _, hp2.cons _⟩
  | swap x y l =>
    intro s d h
    rcases x with ⟨nx, rx⟩
    rcases y with ⟨ny, ry⟩
    simp only [readEntries] at h ⊢
    cases hsy : rsplitHyphen ny with
    | none =>
      rw [hsy] at h
      simp at h
    | some eay =>
      rcases eay with ⟨envy, agenty⟩
      rw [hsy] at h
      cases hsx : rsplitHyphen nx with
      | none =>
        rw [hsx] at h
        simp at h
      | some eax =>
        rcases eax with ⟨envx, agentx⟩
        rw [hsx] at h
        cases hrec : readEntries l with
        | error e =>
          rw [hrec] at h
          simp at h
        | ok v =>
          rw [hrec] at h
          rcases v with ⟨s3, d3⟩
          simp only [Except.ok.injEq, Prod.mk.injEq] at h
          obtain ⟨h1, h2⟩ := h
          subst h1
          subst h2
          exact ⟨_, _, rfl, List.Perm.swap _ _ _, List.Perm.swap _ _ _⟩
  | trans p1 p2 ih1 ih2 =>
    intro s d h
    obtain ⟨s2, d2, h2, hp1, hp2⟩ := ih1 h
    obtain ⟨s3, d3, h3, hq1, hq2⟩ := ih2 h2
    exact ⟨s3, d3, h3, hq1.trans hp1, hq2.trans hp2⟩

theorem forall₂_map_map {α β γ : Type} (l : List α) (f : α → β) (g : α → γ)
    (P : β → γ → Prop) (h : ∀ x ∈ l, P (f x) (g x)) :
    List.Forall₂ P (l.map f) (l.map g) := by
  induction l with
  | nil => simp
  | cons x t ih =>
    simp only [List.map_cons]
    exact List.Forall₂.cons (h x (List.mem_cons_self x t))
      (ih (fun y hy => h y (List.mem_cons_of_mem x hy)))

/-- C2: whenever the wrapped environment reports `done = true`, any pair
`(reward, observation)` returned by `step` has `observation = none`,
regardless of the observation the wrapped environment emitted. -/
theorem gymEnv_step_done_obs_none {Act Obs : Type} (e : GymEnv Act Obs)
    (a : Act) (hdone : (e.envStep a).2.2 = true) :
    ∀ r ob, e.step a = .ok (r, ob) → ob = none := by
  intro r ob h
  unfold GymEnv.step at h
  rcases hs : e.envStep a with ⟨o, rw, d⟩
  rw [hs] at h hdone
  simp only at hdone
  subst hdone
  by_cases hact : e.actionsContain a = false
  · simp [hact] at h
  · rw [if_neg hact] at h
    simp only at h
    by_cases hobs : e.observsContain o = false
    · simp [hobs] at h
    · rw [if_neg hobs] at h
      by_cases hnum : PyVal.isNumber rw = false
      · simp [hnum] at h
      · rw [if_neg hnum] at h
        simp only [if_true, Except.ok.injEq, Prod.mk.injEq] at h
        exact h.2.symm

/-- Witness for C2 at the concrete adapter `egDone` and action `0`. -/
theorem gymEnv_step_done_obs_none_witness :
    (egDone.envStep 0).2.2 = true ∧
      ((PyVal.int 1, (none : Option Nat)).2 = none) :=
  ⟨by decide, gymEnv_step_done_obs_none egDone 0 (by decide) (.int 1) none rfl⟩

/-- C3: for an action inside the declared action space, `step` never fails
the action-containment assertion; for an action outside it, `step` fails
exactly that assertion instead of recovering. -/
theorem gymEnv_step_action_assert {Act Obs : Type} (e : GymEnv Act Obs)
    (a : Act) :
    (e.actionsContain a = true → e.step a ≠ .error .actionMember) ∧
      (e.actionsContain a = false → e.step a = .error .actionMember) := by
  constructor
  · intro hmem h
    unfold GymEnv.step at h
    rw [hmem] at h
    rcases hs : e.envStep a with ⟨o, rw, d⟩
    rw [hs] at h
    simp only [Bool.true_eq_false, if_false] at h
    by_cases hobs : e.observsContain o = false
    · rw [if_pos hobs] at h
      exact AssertKind.noConfusion (Except.error.inj h)
    · rw [if_neg hobs] at h
      by_cases hnum : PyVal.isNumber rw = false
      · rw [if_pos hnum] at h
        exact AssertKind.noConfusion (Except.error.inj h)
      · rw [if_neg hnum] at h
        exact Except.noConfusion h
  · intro hmem
    unfold GymEnv.step
    rw [hmem]
    rfl

/-- Witness for C3 at the concrete adapter `egDone`: action `0` is in the
space and does not trip the assertion, action `1` is not and does. -/
theorem gymEnv_step_action_assert_witness :
    egDone.step 0 ≠ .error .actionMember ∧
      egDone.step 1 = .error .actionMember :=
  ⟨(gymEnv_step_action_assert egDone 0).1 (by decide),
   (gymEnv_step_action_assert egDone 1).2 (by decide)⟩

/-- C4: every reward returned by a successful `step` is numeric, and when
the wrapped environment returns a non-numeric reward `step` fails with an
assertion rather than returning a value. -/
theorem gymEnv_step_reward_numeric {Act Obs : Type} (e : GymEnv Act Obs)
    (a : Act) :
    (∀ r ob, e.step a = .ok (r, ob) → r.isNumber = true) ∧
      ((e.envStep a).2.1.isNumber = false →
        ∀ out, e.step a ≠ .ok out) := by
  constructor
  · intro r ob h
    unfold GymEnv.step at h
    rcases hs : e.envStep a with ⟨o, rw, d⟩
    rw [hs] at h
    by_cases hact : e.actionsContain a = false
    · simp [hact] at h
    · rw [if_neg hact] at h
      simp only at h
      by_cases hobs : e.observsContain o = false
      · simp [hobs] at h
      · rw [if_neg hobs] at h
        by_cases hnum : PyVal.isNumber rw = false
        · simp [hnum] at h
        · rw [if_neg hnum] at h
          simp only [Except.ok.injEq, Prod.mk.injEq] at h
          rw [← h.1]
          exact Bool.not_eq_false _ |>.mp hnum
  · intro hnum out h
    unfold GymEnv.step at h
    rcases hs : e.envStep a with ⟨o, rw, d⟩
    rw [hs] at h hnum
    simp only at hnum
    by_cases hact : e.actionsContain a = false
    · simp [hact] at h
    · rw [if_neg hact] at h
      simp only at h
      by_cases hobs : e.observsContain o = false
      · simp [hobs] at h
      · rw [if_neg hobs, if_pos hnum] at h
        exact Except.noConfusion h

/-- Witness for C4 at the concrete adapters: a successful step on `egDone`
returns a numeric reward, and `egBadReward` never returns successfully. -/
theorem gymEnv_step_reward_numeric_witness :
    (PyVal.int 1).isNumber = true ∧
      egBadReward.step 0 ≠ .ok ((.int 1 : PyVal), some 5) :=
  ⟨(gymEnv_step_reward_numeric egDone 0).1 (.int 1) none rfl,
   (gymEnv_step_reward_numeric egBadReward 0).2 (by decide)
     ((.int 1 : PyVal), some 5)⟩

/-- C9: the observation-containment assertion is applied to the raw
observation before the `done` check, so even on a terminal step
(`done = true`) an out-of-space observation from the wrapped environment
fails the assertion (for a valid action). -/
theorem gymEnv_step_obs_assert_before_done {Act Obs : Type}
    (e : GymEnv Act Obs) (a : Act)
    (hact : e.actionsContain a = true)
    (hobs : e.observsContain (e.envStep a).1 = false)
    (hdone : (e.envStep a).2.2 = true) :
    e.step a = .error .observMember := by
  unfold GymEnv.step
  rw [hact]
  rcases hs : e.envStep a with ⟨o, rw, d⟩
  rw [hs] at hobs
  simp only at hobs
  simp [hobs]

/-- Witness for C9 at the concrete adapter `egBadObs` and action `0`. -/
theorem gymEnv_step_obs_assert_before_done_witness :
    egBadObs.step 0 = .error .observMember :=
  gymEnv_step_obs_assert_before_done egBadObs 0 (by decide) (by decide)
    (by decide)

/-- C5: for repeat count `R`, a completed `_benchmark` run returns exactly
`R` score sequences and exactly `R` duration sequences, the i-th of each
pair equal in length.  The equal-length invariant of one trainer's two
sequences is the spec's `Trainer` contract (one entry per episode),
supplied as the hypothesis on the training oracle. -/
theorem benchmark_repeat_counts (train : TrainFun) (repeats : Nat)
    (dry : Bool) (env agent : Name)
    (hlen : ∀ i, ((train env agent i).2.1).length =
      ((train env agent i).2.2).length)
    (ss ds : List (List Q)) (t : RepeatTree)
    (h : benchmarkPair train repeats dry env agent = .ok (ss, ds, t)) :
    ss.length = repeats ∧ ds.length = repeats ∧
      List.Forall₂ (fun a b => (a : List Q).length = b.length) ss ds := by
  obtain ⟨h1, h2, -⟩ := runRepeats_ok h
  subst h1
  subst h2
  refine ⟨by simp, by simp, ?_⟩
  exact forall₂_map_map (List.range repeats) _ _ _ (fun i _ => hlen i)

/-- Witness for C5: two repeats of the concrete oracle yield two score
sequences and two duration sequences of matching lengths. -/
theorem benchmark_repeat_counts_witness :
    ([[1, 2], [1, 2]] : List (List Q)).length = 2 ∧
      ([[3, 4], [3, 4]] : List (List Q)).length = 2 ∧
      List.Forall₂ (fun a b => (a : List Q).length = b.length)
        ([[1, 2], [1, 2]] : List (List Q)) ([[3, 4], [3, 4]] : List (List Q)) :=
  benchmark_repeat_counts egTrain 2 true [] [] (fun _ => rfl)
    [[1, 2], [1, 2]] [[3, 4], [3, 4]] [] rfl

/-- C6: with no root directory, `run` returns `None` in place of the
experiment path together with the in-memory training results, and the run
performs no filesystem writes (the produced experiment tree is empty). -/
theorem benchmark_dry_run (train : TrainFun) (repeats : Nat) (ts nm : Name)
    (envs agents : List Name) (out : Option FsPath × Res × Res × ExpTree)
    (h : benchCall train repeats none ts nm envs agents = .ok out) :
    out.1 = none ∧ out.2.2.2 = [] ∧
      runPairs train repeats true (pairList envs agents) =
        .ok (out.2.1, out.2.2.1, []) := by
  simp only [benchCall, startExperiment, Option.map] at h
  cases hrp : runPairs train repeats true (pairList envs agents) with
  | error e =>
    rw [hrp] at h
    simp at h
  | ok v =>
    rw [hrp] at h
    rcases v with ⟨s, d, t⟩
    simp only [Except.ok.injEq] at h
    obtain ⟨-, -, h3⟩ := runPairs_ok hrp
    simp only [if_true] at h3
    subst h3
    subst h
    exact ⟨rfl, rfl, rfl⟩

/-- The dry-run output of the concrete one-pair benchmark, used by the
witness for C6. -/
def egDryOut : Option FsPath × Res × Res × ExpTree :=
  (none, [(([101], [97]), [[1, 2], [1, 2]])],
   [(([101], [97]), [[3, 4], [3, 4]])], [])

/-- Witness for C6 at a concrete dry run over one (environment, agent)
pair and two repeats. -/
theorem benchmark_dry_run_witness :
    egDryOut.1 = none ∧ egDryOut.2.2.2 = [] ∧
      runPairs egTrain 2 true (pairList [[101]] [[97]]) =
        .ok (egDryOut.2.1, egDryOut.2.2.1, []) :=
  benchmark_dry_run egTrain 2 [] [] [[101]] [[97]] egDryOut (by decide)

/-- C7: the repeat directory names of one pair are zero-padded so that
their lexicographic order is exactly the numeric repeat order (the mapped
range is pairwise `lexLt`-increasing), and the sorted read of a pair
directory written with those names returns the per-repeat files in the
order 0..R-1. -/
theorem read_repeat_order (repeats : Nat) (f g : Nat → List Q) :
    ((List.range repeats).map (repeatName repeats)).Pairwise
        (fun a b => lexLt a b = true) ∧
      readRepeatDirs ((List.range repeats).map
          (fun i => (repeatName repeats i, f i, g i))) =
        ((List.range repeats).map f, (List.range repeats).map g) :=
  ⟨repeatNames_pairwise repeats, readRepeatDirs_range repeats f g⟩

/-- C8: when every training invocation ends normally or with the
stop-training signal (never another exception), the signal is absorbed at
that repeat's boundary: the stopped repeat's scores and durations are
still appended, and all remaining repeats and all remaining
(environment, agent) pairs still execute, so the run completes with the
full result mapping over every pair and every repeat index. -/
theorem benchmark_stop_training (train : TrainFun) (repeats : Nat)
    (dry : Bool) (pl : List (Name × Name))
    (hsig : ∀ e a i, (train e a i).1 = .normal ∨
      (train e a i).1 = .stopTraining)
    (hrep : 1 ≤ repeats)
    (hne : ∀ e a i, (train e a i).2.1 ≠ []) :
    ∃ t, runPairs train repeats dry pl =
      .ok (pl.map (fun p => (p, (List.range repeats).map
            (fun i => (train p.1 p.2 i).2.1))),
           pl.map (fun p => (p, (List.range repeats).map
            (fun i => (train p.1 p.2 i).2.2))), t) :=
  runPairs_total hrep
    (fun p _ i _ => by rcases hsig p.1 p.2 i with hs | hs <;> simp [hs])
    (fun p _ i _ => hne p.1 p.2 i)

/-- Witness for C8: the concrete oracle raises the stop-training signal on
every repeat, and the one-pair two-repeat run still completes with both
repeats' scores recorded. -/
theorem benchmark_stop_training_witness :
    ∃ t, runPairs egTrain 2 false [([101], [97])] =
      .ok ([([101], [97])].map (fun p => (p, (List.range 2).map
            (fun i => (egTrain p.1 p.2 i).2.1))),
           [([101], [97])].map (fun p => (p, (List.range 2).map
            (fun i => (egTrain p.1 p.2 i).2.2))), t) :=
  benchmark_stop_training egTrain 2 false [([101], [97])]
    (fun _ _ _ => Or.inr rfl) (by decide) (fun _ _ _ h => List.noConfusion h)

/-- C10: with at least one (environment, agent) pair processed and no
training invocation raising an exception other than the stop-training
signal, the pair loop completes exactly when the repeat count is at least
1 and every executed repeat produced a non-empty score sequence; in every
other case it raises the division by zero of the printed mean or the
`max` of an empty sequence, never completing. -/
theorem benchmark_mean_best_requires (train : TrainFun) (repeats : Nat)
    (dry : Bool) (pl : List (Name × Name)) (hpl : pl ≠ [])
    (hnf : ∀ p ∈ pl, ∀ i, i < repeats → (train p.1 p.2 i).1 ≠ .fatal) :
    ((∃ out, runPairs train repeats dry pl = .ok out) ↔
      (1 ≤ repeats ∧ ∀ p ∈ pl, ∀ i, i < repeats →
        (train p.1 p.2 i).2.1 ≠ [])) ∧
    ((∃ out, runPairs train repeats dry pl = .ok out) ∨
      runPairs train repeats dry pl = .error .zeroDiv ∨
      runPairs train repeats dry pl = .error .maxEmpty) := by
  constructor
  · constructor
    · rintro ⟨out, hout⟩
      obtain ⟨h1, h2⟩ := runPairs_ok_necessary hout
      exact ⟨h2 hpl, h1⟩
    · rintro ⟨h1, h2⟩
      obtain ⟨t, ht⟩ := runPairs_total h1 hnf h2
      exact ⟨_, ht⟩
  · exact runPairs_err_kinds hnf

/-- Witness for C10 at repeat count 0 over one pair: the run cannot
complete (the right side of the equivalence is false) and indeed ends in
the division-by-zero error. -/
theorem benchmark_mean_best_requires_witness :
    ((∃ out, runPairs egTrain 0 true [([101], [97])] = .ok out) ↔
      (1 ≤ 0 ∧ ∀ p ∈ [(([101], [97]) : Name × Name)], ∀ i, i < 0 →
        (egTrain p.1 p.2 i).2.1 ≠ [])) ∧
    ((∃ out, runPairs egTrain 0 true [([101], [97])] = .ok out) ∨
      runPairs egTrain 0 true [([101], [97])] = .error .zeroDiv ∨
      runPairs egTrain 0 true [([101], [97])] = .error .maxEmpty) :=
  benchmark_mean_best_requires egTrain 0 true [([101], [97])] (by decide)
    (fun p _ i hi => absurd hi (Nat.not_lt_zero i))

/-- C1: round trip through persistence.  For a completed non-dry run,
applying `read` to the experiment the run wrote (its tree of pair and
repeat directories) succeeds and yields exactly the in-memory scores and
durations the run collected: the same (environment, agent) keyed entries
(up to the sorted order `read` enumerates directories in, hence the
permutation) with the same repeat sequences in the same order.  Agent
class names contain no hyphen (Python identifiers), which makes the
`rsplit` on the last hyphen recover each pair; the `Nodup` hypotheses
rule out one pair directory being written twice.  The per-repeat writing
of `scores.npy`/`durations.npy` is the spec-modelled `Trainer` contract
(`trainerWrites`). -/
theorem benchmark_roundtrip (train : TrainFun) (repeats : Nat)
    (envs agents : List Name) (s d : Res) (t : ExpTree)
    (henv : envs.Nodup) (hagn : agents.Nodup)
    (hag : ∀ a ∈ agents, hyphenCh ∉ a)
    (h : runPairs train repeats false (pairList envs agents) =
      .ok (s, d, t)) :
    ∃ s2 d2, readExp t = .ok (s2, d2) ∧ s2.Perm s ∧ d2.Perm d := by
  obtain ⟨h1, h2, h3⟩ := runPairs_ok h
  subst h1
  subst h2
  simp only [Bool.false_eq_true, if_false] at h3
  have hre : readEntries t =
      .ok ((pairList envs agents).map (fun p => (p,
          (List.range repeats).map (fun i => (train p.1 p.2 i).2.1))),
        (pairList envs agents).map (fun p => (p,
          (List.range repeats).map (fun i => (train p.1 p.2 i).2.2)))) := by
    rw [h3]
    exact readEntries_pairs (fun p hp => hag p.2 (pairList_mem hp).2)
  have hperm : t.Perm (sortByKey t) :=
    (List.perm_insertionSort (@keyLe RepeatTree) t).symm
  obtain ⟨s2, d2, hr2, hp1, hp2⟩ := readEntries_perm hperm hre
  exact ⟨s2, d2, hr2, hp1, hp2⟩

/-- Witness for C1: the one-pair two-repeat non-dry run writes the pair
directory `e-a` with zero-padded repeat directories, and reading it back
returns the collected scores and durations. -/
theorem benchmark_roundtrip_witness :
    ∃ s2 d2, readExp [([101, 45, 97],
        [([114, 101, 112, 101, 97, 116, 45, 48], [1, 2], [3, 4]),
         ([114, 101, 112, 101, 97, 116, 45, 49], [1, 2], [3, 4])])] =
      .ok (s2, d2) ∧
      s2.Perm [(([101], [97]), [[1, 2], [1, 2]])] ∧
      d2.Perm [(([101], [97]), [[3, 4], [3, 4]])] :=
  benchmark_roundtrip egTrain 2 [[101]] [[97]]
    [(([101], [97]), [[1, 2], [1, 2]])]
    [(([101], [97]), [[3, 4], [3, 4]])]
    [([101, 45, 97],
      [([114, 101, 112, 101, 97, 116, 45, 48], [1, 2], [3, 4]),
       ([114, 101, 112, 101, 97, 116, 45, 49], [1, 2], [3, 4])])]
    (by decide) (by decide) (by decide) (by decide)
